import Mathlib

/-!
Verification development for the zksnark-rs core. This file gives a shallow
embedding of the Z/251 field backend (src/field/z251.rs), the polynomial
layer with long division and the DFT/IDFT pair (src/field/mod.rs), the toy
elliptic-encryption backend, and the point-wise representation
(src/groth16/fft.rs), and proves or refutes the specified properties of
those operations. Machine integers are modelled as Nat with reduction
mod 251 exactly where the source reduces, and as Int where the source uses
isize. Loops are modelled as fueled structural recursions; every fuel
argument passed by the embedding is shown (or is evident) to dominate the
number of iterations the source loop performs, so the embedded functions
agree with the source on all inputs where the source loop terminates.
-/


/-- Field element of Z/251 as in src/field/z251.rs: a struct wrapping an
unsigned machine integer representative. -/
structure Z251 where
  inner : Nat
deriving DecidableEq

/-- Zero element, from the FieldIdentity impl for Z251. -/
def z251zero : Z251 := ⟨0⟩

/-- One element, from the FieldIdentity impl for Z251. -/
def z251one : Z251 := ⟨1⟩

/-- Addition on Z251: widen, add, reduce mod 251 (impl Add for Z251). -/
def Z251.add (a b : Z251) : Z251 := ⟨(a.inner + b.inner) % 251⟩

/-- Negation on Z251: the source computes 251 - inner with no reduction
(impl Neg for Z251). Nat subtraction models the u8 subtraction, which
cannot underflow since inner is at most 251 on all reachable values. -/
def Z251.neg (a : Z251) : Z251 := ⟨251 - a.inner⟩

/-- Subtraction on Z251: self + (-rhs) (impl Sub for Z251). -/
def Z251.sub (a b : Z251) : Z251 := a.add b.neg

/-- Multiplication on Z251: widen, multiply, reduce mod 251 (impl Mul for Z251). -/
def Z251.mul (a b : Z251) : Z251 := ⟨(a.inner * b.inner) % 251⟩

/-- Body of the ext_euc_alg while loop from src/field/mod.rs, instantiated at
isize as the Div impl for Z251 does. The fuel argument bounds the number of
iterations; the absolute value of r1 strictly decreases on every pass, so any
fuel of at least natAbs r1 + 1 is never exhausted. Int.tdiv is Rust's
truncated isize division. -/
def extEucLoop : Nat → Int × Int → Int × Int → Int × Int → Int × Int × Int
  | 0, (r0, _), (s0, _), (t0, _) => (r0, s0, t0)
  | fuel+1, (r0, r1), (s0, s1), (t0, t1) =>
    if r1 = 0 then (r0, s0, t0)
    else
      let q := Int.tdiv r0 r1
      extEucLoop fuel (r1, r0 - q * r1) (s1, s0 - q * s1) (t1, t0 - q * t1)

/-- Extended Euclidean algorithm ext_euc_alg from src/field/mod.rs, returning
Bezout data (gcd, s, t). -/
def ext_euc_alg (a b : Int) : Int × Int × Int :=
  extEucLoop (a.natAbs + b.natAbs + 1) (a, b) (1, 0) (0, 1)

/-- Body of the while loop in the Div impl for Z251 that adds 251 until the
Bezout coefficient is nonnegative. Fuel natAbs inv + 1 always dominates the
iteration count since each pass adds 251. -/
def normInvLoop : Nat → Int → Int
  | 0, inv => inv
  | f+1, inv => if inv < 0 then normInvLoop f (inv + 251) else inv

/-- Representative of the multiplicative inverse as computed by the Div impl
for Z251: run ext_euc_alg on (c, 251), normalize the s coefficient to be
nonnegative, then cast to u8 (modelled by the final reduction mod 256). -/
def invRep (c : Nat) : Nat :=
  let (_, s, _) := ext_euc_alg (Int.ofNat c) 251
  (normInvLoop (s.natAbs + 1) s).toNat % 256

/-- Division on Z251 (impl Div for Z251): multiply by the normalized Bezout
coefficient of the divisor. -/
def Z251.div (a b : Z251) : Z251 := a.mul ⟨invRep b.inner⟩

/-- Multiplicative inverse (impl Field for Z251): one divided by self. -/
def Z251.mul_inv (a : Z251) : Z251 := z251one.div a

/-- Conversion from usize (impl From of usize for Z251): the source asserts
n < 251 and then stores n in the u8. The assertion failure is modelled as
none. -/
def z251_from_usize (n : Nat) : Option Z251 :=
  if n < 251 then some ⟨n⟩ else none

/-- Toy encryption into G1 (impl EllipticEncryptable for Z251, both in
src/field/z251.rs and src/encryption.rs): multiply by 69. -/
def Z251.encrypt_g1 (a : Z251) : Z251 := a.mul ⟨69⟩

/-- Toy encryption into G2: multiply by 69. -/
def Z251.encrypt_g2 (a : Z251) : Z251 := a.mul ⟨69⟩

/-- Toy scalar multiplication on an encrypted G1 point. -/
def Z251.exp_encrypted_g1 (a g1 : Z251) : Z251 := a.mul g1

/-- Toy scalar multiplication on an encrypted G2 point. -/
def Z251.exp_encrypted_g2 (a g2 : Z251) : Z251 := a.mul g2

/-- Toy pairing into GT: plain multiplication. -/
def Z251.pairing (g1 g2 : Z251) : Z251 := g1.mul g2

instance : Fact (Nat.Prime 251) := ⟨by norm_num⟩

/-- Semantic view of a Z251 value in the mathematical field ZMod 251. -/
def Z251.toZMod (a : Z251) : ZMod 251 := (a.inner : ZMod 251)

lemma zmod_251_eq_zero : (251 : ZMod 251) = 0 := by decide

lemma natCast_mod_251 (a : Nat) : ((a % 251 : Nat) : ZMod 251) = (a : ZMod 251) := by
  conv_rhs => rw [← Nat.mod_add_div a 251]
  push_cast
  rw [zmod_251_eq_zero]
  ring

lemma toZMod_add (a b : Z251) : (a.add b).toZMod = a.toZMod + b.toZMod := by
  simp [Z251.add, Z251.toZMod, natCast_mod_251]

lemma toZMod_mul (a b : Z251) : (a.mul b).toZMod = a.toZMod * b.toZMod := by
  simp [Z251.mul, Z251.toZMod, natCast_mod_251]

lemma toZMod_neg (a : Z251) (h : a.inner ≤ 251) : a.neg.toZMod = -a.toZMod := by
  simp only [Z251.neg, Z251.toZMod]
  rw [Nat.cast_sub h]
  push_cast
  rw [zmod_251_eq_zero]
  ring

lemma toZMod_sub (a b : Z251) (h : b.inner ≤ 251) : (a.sub b).toZMod = a.toZMod - b.toZMod := by
  rw [Z251.sub, toZMod_add, toZMod_neg _ h]
  ring

lemma add_inner_lt (a b : Z251) : (a.add b).inner < 251 :=
  Nat.mod_lt _ (by norm_num)

lemma mul_inner_lt (a b : Z251) : (a.mul b).inner < 251 :=
  Nat.mod_lt _ (by norm_num)

lemma sub_inner_lt (a b : Z251) : (a.sub b).inner < 251 :=
  add_inner_lt _ _

lemma div_inner_lt (a b : Z251) : (a.div b).inner < 251 :=
  mul_inner_lt _ _

lemma toZMod_inj (a b : Z251) (ha : a.inner < 251) (hb : b.inner < 251)
    (h : a.toZMod = b.toZMod) : a = b := by
  have ha' := ZMod.val_cast_of_lt ha
  have hb' := ZMod.val_cast_of_lt hb
  have : a.inner = b.inner := by
    rw [← ha', ← hb']
    exact congrArg ZMod.val h
  cases a; cases b; simpa using this

set_option maxRecDepth 100000 in
set_option maxHeartbeats 2000000 in
lemma invRep_mul_self : ∀ c : Nat, c < 251 → c ≠ 0 → (invRep c * c) % 251 = 1 ∧ invRep c < 251 := by
  decide

lemma toZMod_invRep (c : Nat) (hc : c < 251) (hc0 : c ≠ 0) :
    ((invRep c : Nat) : ZMod 251) = (c : ZMod 251)⁻¹ := by
  apply eq_inv_of_mul_eq_one_left
  have h := (invRep_mul_self c hc hc0).1
  calc ((invRep c : Nat) : ZMod 251) * ((c : Nat) : ZMod 251)
      = ((invRep c * c : Nat) : ZMod 251) := by push_cast; ring
    _ = (((invRep c * c) % 251 : Nat) : ZMod 251) := (natCast_mod_251 _).symm
    _ = 1 := by rw [h]; norm_num

lemma toZMod_div (a b : Z251) (hb : b.inner < 251) (hb0 : b.inner ≠ 0) :
    (a.div b).toZMod = a.toZMod * b.toZMod⁻¹ := by
  rw [Z251.div, toZMod_mul]
  congr 1
  exact toZMod_invRep b.inner hb hb0

lemma toZMod_mul_inv (a : Z251) (ha : a.inner < 251) (ha0 : a.inner ≠ 0) :
    a.mul_inv.toZMod = a.toZMod⁻¹ := by
  rw [Z251.mul_inv, toZMod_div _ _ ha ha0]
  simp [z251one, Z251.toZMod]

lemma toZMod_eq_zero_iff (a : Z251) (ha : a.inner < 251) :
    a.toZMod = 0 ↔ a.inner = 0 := by
  constructor
  · intro h
    have := ZMod.val_cast_of_lt ha
    rw [Z251.toZMod] at h
    rw [← this, h]
    simp
  · intro h
    simp [Z251.toZMod, h]

/-- Claim C1 (code_bug evidence): mul_inv applied to the zero element does not
fail; the extended Euclidean algorithm on (0, 251) returns Bezout coefficient
s = 0, so the code silently returns the zero element. -/
theorem mul_inv_zero_returns_zero : Z251.mul_inv z251zero = z251zero := by
  decide

/-- Claim C4 (code_bug evidence): negation of the zero element yields the
representative 251, which is not reduced into the range [0, 251); every
other field operation embedded here does reduce. -/
theorem neg_zero_not_reduced :
    (Z251.neg z251zero).inner = 251 ∧ ¬ (Z251.neg z251zero).inner < 251 := by
  decide

/-- Claim C5: the toy encryption backend satisfies the required bilinearity
law, pairing of encrypt_g1 (a * b) with encrypt_g2 c equals pairing of
encrypt_g1 a with encrypt_g2 (b * c), for all scalars. -/
theorem pairing_bilinear (a b c : Z251) :
    Z251.pairing ((a.mul b).encrypt_g1) (c.encrypt_g2)
      = Z251.pairing (a.encrypt_g1) ((b.mul c).encrypt_g2) := by
  apply toZMod_inj _ _ (mul_inner_lt _ _) (mul_inner_lt _ _)
  simp only [Z251.pairing, Z251.encrypt_g1, Z251.encrypt_g2, toZMod_mul]
  ring

/-- Claim C10: converting a usize into Z251 succeeds exactly when the input
is below 251, in which case the stored representative is the input itself;
under that precondition the assertion cannot fire. -/
theorem from_usize_ok (n : Nat) :
    ((z251_from_usize n).isSome ↔ n < 251) ∧ (n < 251 → z251_from_usize n = some ⟨n⟩) := by
  constructor
  · constructor
    · intro h
      by_contra hn
      simp [z251_from_usize, hn] at h
    · intro h
      simp [z251_from_usize, h]
  · intro h
    simp [z251_from_usize, h]

/-- Witness for from_usize_ok at the concrete input 5. -/
theorem from_usize_ok_witness :
    ((z251_from_usize 5).isSome ↔ 5 < 251) ∧ (5 < 251 → z251_from_usize 5 = some ⟨5⟩) :=
  from_usize_ok 5

/-- Degree scan from the Polynomial trait in src/field/mod.rs: starting from
len - 1 (0 for the empty vector), walk the coefficients from the back,
decrementing while the coefficient is zero and the running degree is
nonzero. -/
def degreeAux : List Z251 → Nat → Nat
  | [], deg => deg
  | c :: rest, deg => if c == z251zero && deg != 0 then degreeAux rest (deg - 1) else deg

/-- Degree of a coefficient vector (Polynomial::degree). -/
def degree (l : List Z251) : Nat := degreeAux l.reverse (l.length - 1)

/-- Trailing-zero trimming (Polynomial::remove_leading_zeros): reverse, skip
zeros, collect, reverse back. -/
def remove_leading_zeros (l : List Z251) : List Z251 :=
  ((l.reverse.dropWhile fun c => c == z251zero).reverse)

/-- Remainder update of one long-division iteration in polynomial_division
(src/field/mod.rs): the source mutates the remainder in place, walking it
from the top, skipping top zero coefficients, and subtracting the divisor
coefficients scaled by s and reversed; entries beyond the zip are unchanged. -/
def polyDivSub (r dcs : List Z251) (s : Z251) : List Z251 :=
  let rr := r.reverse
  let pre := rr.takeWhile fun c => c == z251zero
  let rest := rr.dropWhile fun c => c == z251zero
  let sc := (dcs.map fun a => a.mul s).reverse
  (pre ++ (List.zipWith (fun x b => x.sub b) rest sc ++ rest.drop sc.length)).reverse

/-- While loop of polynomial_division: while the remainder degree is at least
the divisor degree and the remainder is nonempty, divide the top coefficients,
record the quotient coefficient, subtract, and trim. The fuel argument bounds
the iteration count; on in-range states every iteration strictly shortens the
remainder, so fuel equal to the initial remainder length plus one is never
exhausted. -/
def polyDivLoop (dcs : List Z251) (dd : Nat) (c : Z251) : Nat → List Z251 → List Z251 → List Z251 × List Z251
  | 0, q, r => (q, r)
  | fuel+1, q, r =>
    if dd ≤ degree r ∧ r.length ≠ 0 then
      let s := (r.getD (degree r) z251zero).div c
      let q' := q.set (degree r - dd) s
      let r' := remove_leading_zeros (polyDivSub r dcs s)
      polyDivLoop dcs dd c fuel q' r'
    else (q, r)

/-- Long division polynomial_division from src/field/mod.rs. The source
panics when the divisor has no nonzero coefficient; the panic is modelled as
none. The all-zero check is the source's skip_while-count test; the early
return for a divisor of larger degree is the source's documented base case. -/
def polynomial_division (poly dividend : List Z251) : Option (List Z251 × List Z251) :=
  if (dividend.dropWhile fun c => c == z251zero).length = 0 then none
  else if degree poly < degree dividend then some ([z251zero], [z251zero])
  else
    let p := remove_leading_zeros poly
    let dv := remove_leading_zeros dividend
    let q := List.replicate (degree p + 1 - degree dv) z251zero
    let dd := degree dv
    let c := dv.getD dd z251zero
    some (polyDivLoop dv dd c (p.length + 1) q p)

/-- Evaluation-domain sample (struct Points in src/groth16/fft.rs). -/
structure Points (P : Type) where
  degree : P
  y : P
deriving DecidableEq

/-- Point-wise polynomial representation (struct PointWise in
src/groth16/fft.rs). -/
structure PointWise (P : Type) where
  points : List (Points P)
deriving DecidableEq

/-- Point-wise addition (impl Add for PointWise): zip the two sample lists,
keep the left operand's index, add the values. -/
def PointWise.add {P : Type} [Add P] (a b : PointWise P) : PointWise P :=
  ⟨(a.points.zip b.points).map fun ab => ⟨ab.1.degree, ab.1.y + ab.2.y⟩⟩

lemma rlz_concat_zero (l : List Z251) :
    remove_leading_zeros (l ++ [z251zero]) = remove_leading_zeros l := by
  simp [remove_leading_zeros, List.reverse_append, List.dropWhile_cons]

lemma rlz_concat_nonzero (l : List Z251) (a : Z251) (ha : a ≠ z251zero) :
    remove_leading_zeros (l ++ [a]) = l ++ [a] := by
  simp [remove_leading_zeros, List.reverse_append, List.dropWhile_cons, ha]

/-- Structural characterization of remove_leading_zeros: the input is the
output followed by a block of zero coefficients, and a nonempty output ends
in a nonzero coefficient. -/
lemma rlz_spec (l : List Z251) :
    (∃ k, l = remove_leading_zeros l ++ List.replicate k z251zero) ∧
    (∀ h : remove_leading_zeros l ≠ [], (remove_leading_zeros l).getLast h ≠ z251zero) := by
  induction l using List.reverseRecOn with
  | nil =>
    refine ⟨⟨0, by simp [remove_leading_zeros]⟩, ?_⟩
    intro h
    simp [remove_leading_zeros] at h
  | append_singleton ys a ih =>
    by_cases ha : a = z251zero
    · subst ha
      rw [rlz_concat_zero]
      obtain ⟨⟨k, hk⟩, hlast⟩ := ih
      refine ⟨⟨k + 1, ?_⟩, hlast⟩
      conv_lhs => rw [hk]
      rw [List.replicate_succ', List.append_assoc]
    · rw [rlz_concat_nonzero ys a ha]
      refine ⟨⟨0, by simp⟩, ?_⟩
      intro h
      rw [List.getLast_concat]
      exact ha

lemma rlz_eq_nil_iff (l : List Z251) :
    remove_leading_zeros l = [] ↔ ∀ c ∈ l, c = z251zero := by
  constructor
  · intro h c hc
    obtain ⟨⟨k, hk⟩, -⟩ := rlz_spec l
    rw [hk, h, List.nil_append] at hc
    exact List.eq_of_mem_replicate hc
  · intro h
    simp only [remove_leading_zeros, List.reverse_eq_nil_iff]
    rw [List.dropWhile_eq_nil_iff]
    intro x hx
    simp only [beq_iff_eq]
    exact h x (List.mem_reverse.mp hx)

lemma rlz_length_le (l : List Z251) : (remove_leading_zeros l).length ≤ l.length := by
  obtain ⟨⟨k, hk⟩, -⟩ := rlz_spec l
  conv_rhs => rw [hk]
  simp

/-- Claim C8 counterexample: trimming the all-zero polynomial leaves zero
elements, not at least one. -/
theorem remove_leading_zeros_empty_on_zero :
    remove_leading_zeros [z251zero] = [] ∧ (remove_leading_zeros [z251zero]).length = 0 := by
  constructor <;> rfl

/-- Claim C8 as amended: remove_leading_zeros splits off exactly a trailing
block of zero coefficients; its result is empty precisely on polynomials with
no nonzero coefficient (in particular the all-zero polynomial), and a
nonempty result ends in a nonzero coefficient. -/
theorem remove_leading_zeros_spec (l : List Z251) :
    (∃ k, l = remove_leading_zeros l ++ List.replicate k z251zero) ∧
    (∀ h : remove_leading_zeros l ≠ [], (remove_leading_zeros l).getLast h ≠ z251zero) ∧
    (remove_leading_zeros l = [] ↔ ∀ c ∈ l, c = z251zero) :=
  ⟨(rlz_spec l).1, (rlz_spec l).2, rlz_eq_nil_iff l⟩

/-- Witness for remove_leading_zeros_spec at a concrete polynomial with one
trailing zero. -/
theorem remove_leading_zeros_spec_witness :
    (∃ k, [(⟨1⟩ : Z251), ⟨0⟩] = remove_leading_zeros [⟨1⟩, ⟨0⟩] ++ List.replicate k z251zero) ∧
    (∀ h : remove_leading_zeros [(⟨1⟩ : Z251), ⟨0⟩] ≠ [],
      (remove_leading_zeros [(⟨1⟩ : Z251), ⟨0⟩]).getLast h ≠ z251zero) ∧
    (remove_leading_zeros [(⟨1⟩ : Z251), ⟨0⟩] = [] ↔ ∀ c ∈ [(⟨1⟩ : Z251), ⟨0⟩], c = z251zero) :=
  remove_leading_zeros_spec [⟨1⟩, ⟨0⟩]

/-- Claim C7: dividing by a polynomial all of whose coefficients are zero
fails explicitly (the source panics; modelled as none), for every dividend. -/
theorem polynomial_division_zero_divisor (n d : List Z251) (hd : ∀ c ∈ d, c = z251zero) :
    polynomial_division n d = none := by
  have : (d.dropWhile fun c => c == z251zero) = [] := by
    rw [List.dropWhile_eq_nil_iff]
    intro x hx
    simp only [beq_iff_eq]
    exact hd x hx
  simp [polynomial_division, this]

/-- Witness for polynomial_division_zero_divisor on a concrete all-zero
divisor. -/
theorem polynomial_division_zero_divisor_witness :
    polynomial_division [(⟨1⟩ : Z251), ⟨2⟩, ⟨3⟩] [⟨0⟩, ⟨0⟩] = none :=
  polynomial_division_zero_divisor [⟨1⟩, ⟨2⟩, ⟨3⟩] [⟨0⟩, ⟨0⟩] (by decide)

/-- Claim C6 counterexample: point-wise addition of operands with different
index sets returns a silently truncated result instead of an error; here a
two-sample polynomial plus a one-sample polynomial yields one sample. -/
theorem pointwise_add_truncates :
    (PointWise.add (⟨[⟨0, 1⟩, ⟨1, 2⟩]⟩ : PointWise Nat) ⟨[⟨0, 5⟩]⟩).points = [⟨0, 6⟩] ∧
    (PointWise.add (⟨[⟨0, 1⟩, ⟨1, 2⟩]⟩ : PointWise Nat) ⟨[⟨0, 5⟩]⟩).points.length ≠ 2 := by
  constructor <;> decide

lemma pointwise_add_points {P : Type} [Add P] (as bs : List (Points P)) :
    ((as.zip bs).map fun ab => (⟨ab.1.degree, ab.1.y + ab.2.y⟩ : Points P)).map Points.y
      = List.zipWith (fun x y => x + y) (as.map Points.y) (bs.map Points.y) := by
  induction as generalizing bs with
  | nil => simp
  | cons x xs ih =>
    cases bs with
    | nil => simp
    | cons y ys => simp [List.zip_cons_cons, ih]

lemma pointwise_add_degrees {P : Type} [Add P] (as bs : List (Points P)) :
    ((as.zip bs).map fun ab => (⟨ab.1.degree, ab.1.y + ab.2.y⟩ : Points P)).map Points.degree
      = (as.map Points.degree).take bs.length := by
  induction as generalizing bs with
  | nil => simp
  | cons x xs ih =>
    cases bs with
    | nil => simp
    | cons y ys => simp [List.zip_cons_cons, ih]

/-- Claim C6 as amended: point-wise addition never signals an error; it pairs
the samples positionally, truncating to the shorter operand, keeps the left
operand's indices, and adds the sample values, so on operands with the same
ordered index set it returns the point-wise sums at those indices. -/
theorem pointwise_add_spec {P : Type} [Add P] (a b : PointWise P) :
    (PointWise.add a b).points.length = min a.points.length b.points.length ∧
    (PointWise.add a b).points.map Points.degree
      = (a.points.map Points.degree).take b.points.length ∧
    (PointWise.add a b).points.map Points.y
      = List.zipWith (fun x y => x + y) (a.points.map Points.y) (b.points.map Points.y) := by
  refine ⟨?_, ?_, ?_⟩
  · simp [PointWise.add, List.length_zip]
  · exact pointwise_add_degrees a.points b.points
  · exact pointwise_add_points a.points b.points

/-- Interpretation of a coefficient vector (index i holds the coefficient of
X to the i) as a polynomial over the mathematical field ZMod 251. This is the
semantic view used to state the division law; it is not source code, so it may
be noncomputable. -/
noncomputable def toPoly (l : List Z251) : Polynomial (ZMod 251) :=
  l.foldr (fun a p => Polynomial.C a.toZMod + Polynomial.X * p) 0

lemma toZMod_zero : z251zero.toZMod = 0 := by
  simp [z251zero, Z251.toZMod]

lemma toPoly_nil : toPoly [] = 0 := rfl

lemma toPoly_cons (a : Z251) (l : List Z251) :
    toPoly (a :: l) = Polynomial.C a.toZMod + Polynomial.X * toPoly l := rfl

lemma toPoly_coeff (l : List Z251) (j : Nat) :
    (toPoly l).coeff j = (l.getD j z251zero).toZMod := by
  induction l generalizing j with
  | nil => simp [toPoly, toZMod_zero]
  | cons a t ih =>
    cases j with
    | zero =>
      simp [toPoly_cons, Polynomial.coeff_add, Polynomial.mul_coeff_zero,
        Polynomial.coeff_C_zero, List.getD_cons_zero, Polynomial.coeff_X_zero]
    | succ j =>
      simp [toPoly_cons, Polynomial.coeff_add, Polynomial.coeff_C,
        Polynomial.coeff_X_mul, ih, List.getD_cons_succ]

lemma toPoly_concat (l : List Z251) (x : Z251) :
    toPoly (l ++ [x]) = toPoly l + Polynomial.C x.toZMod * Polynomial.X ^ l.length := by
  induction l with
  | nil => simp [toPoly_cons, toPoly_nil]
  | cons a t ih =>
    simp only [List.cons_append, toPoly_cons, ih, List.length_cons]
    ring

lemma toPoly_concat_zero (l : List Z251) :
    toPoly (l ++ [z251zero]) = toPoly l := by
  rw [toPoly_concat, toZMod_zero]
  simp

lemma toPoly_append_replicate_zero (l : List Z251) (k : Nat) :
    toPoly (l ++ List.replicate k z251zero) = toPoly l := by
  induction k with
  | zero => simp
  | succ k ih =>
    rw [List.replicate_succ', ← List.append_assoc, toPoly_concat_zero, ih]

lemma toPoly_rlz (l : List Z251) : toPoly (remove_leading_zeros l) = toPoly l := by
  obtain ⟨k, hk⟩ := (rlz_spec l).1
  conv_rhs => rw [hk]
  rw [toPoly_append_replicate_zero]

lemma toPoly_replicate_zero (k : Nat) : toPoly (List.replicate k z251zero) = 0 := by
  have h := toPoly_append_replicate_zero [] k
  simpa [toPoly_nil] using h

lemma toPoly_map_mul (dcs : List Z251) (s : Z251) :
    toPoly (dcs.map fun a => a.mul s) = Polynomial.C s.toZMod * toPoly dcs := by
  induction dcs with
  | nil => simp [toPoly_nil]
  | cons a t ih =>
    simp only [List.map_cons, toPoly_cons, ih, toZMod_mul, map_mul]
    ring

lemma getD_set_ne (l : List Z251) (j i : Nat) (s : Z251) (h : j ≠ i) :
    (l.set j s).getD i z251zero = l.getD i z251zero := by
  by_cases hi : i < l.length
  · rw [List.getD_eq_getElem _ _ (by simpa using hi), List.getD_eq_getElem _ _ hi,
      List.getElem_set]
    simp [h]
  · rw [List.getD_eq_default _ _ (by simpa using not_lt.mp hi),
      List.getD_eq_default _ _ (not_lt.mp hi)]

lemma getD_replicate_zero (k i : Nat) :
    (List.replicate k z251zero).getD i z251zero = z251zero := by
  by_cases hi : i < k
  · rw [List.getD_eq_getElem _ _ (by simpa using hi), List.getElem_replicate]
  · rw [List.getD_eq_default _ _ (by simpa using not_lt.mp hi)]

lemma toPoly_set (q : List Z251) (i : Nat) (s : Z251) (hi : i < q.length)
    (hq : q.getD i z251zero = z251zero) :
    toPoly (q.set i s) = toPoly q + Polynomial.C s.toZMod * Polynomial.X ^ i := by
  ext j
  rw [Polynomial.coeff_add, toPoly_coeff, toPoly_coeff, Polynomial.coeff_C_mul,
    Polynomial.coeff_X_pow]
  by_cases hij : j = i
  · subst hij
    rw [List.getD_eq_getElem _ _ (by simpa using hi), List.getElem_set, hq, toZMod_zero]
    simp
  · rw [getD_set_ne _ _ _ _ fun he => hij he.symm]
    simp [hij]

lemma mem_rlz (l : List Z251) (x : Z251) (hx : x ∈ remove_leading_zeros l) : x ∈ l := by
  obtain ⟨k, hk⟩ := (rlz_spec l).1
  rw [hk]
  exact List.mem_append_left _ hx

lemma degree_def (l : List Z251) : degree l = degreeAux l.reverse (l.length - 1) := rfl

lemma degree_nil : degree ([] : List Z251) = 0 := rfl

lemma degree_concat_nonzero (l : List Z251) (a : Z251) (ha : a ≠ z251zero) :
    degree (l ++ [a]) = l.length := by
  have hb : (a == z251zero) = false := beq_eq_false_iff_ne.mpr ha
  rw [degree_def]
  have hrev : (l ++ [a]).reverse = a :: l.reverse := by simp
  have hlen : (l ++ [a]).length - 1 = l.length := by simp
  rw [hrev, hlen]
  simp [degreeAux, hb]

lemma degree_last_nonzero (l : List Z251) (h : l ≠ []) (hl : l.getLast h ≠ z251zero) :
    degree l = l.length - 1 := by
  induction l using List.reverseRecOn with
  | nil => exact absurd rfl h
  | append_singleton ys a ih =>
    rw [List.getLast_concat] at hl
    rw [degree_concat_nonzero _ _ hl]
    simp

lemma degree_concat_zero (l : List Z251) : degree (l ++ [z251zero]) = degree l := by
  by_cases hl : l = []
  · subst hl
    rfl
  · have hlen : l.length ≠ 0 := by simpa using hl
    rw [degree_def, degree_def]
    have hrev : (l ++ [z251zero]).reverse = z251zero :: l.reverse := by simp
    have hlen1 : (l ++ [z251zero]).length - 1 = l.length := by simp
    rw [hrev, hlen1]
    have h2 : (l.length != 0) = true := by simpa using hlen
    simp [degreeAux, h2]

lemma degree_append_replicate_zero (l : List Z251) (k : Nat) :
    degree (l ++ List.replicate k z251zero) = degree l := by
  induction k with
  | zero => simp
  | succ k ih =>
    rw [List.replicate_succ', ← List.append_assoc, degree_concat_zero, ih]

lemma degree_rlz (l : List Z251) : degree (remove_leading_zeros l) = degree l := by
  obtain ⟨k, hk⟩ := (rlz_spec l).1
  conv_rhs => rw [hk]
  rw [degree_append_replicate_zero]

lemma rlz_getLast' (l : List Z251) :
    (remove_leading_zeros l).getLast? ≠ some z251zero := by
  by_cases h : remove_leading_zeros l = []
  · simp [h]
  · rw [List.getLast?_eq_getLast _ h]
    intro he
    exact (rlz_spec l).2 h (Option.some.inj he)

lemma rlz_length_lt_of_last_zero (l : List Z251) (h : l.getLast? = some z251zero) :
    (remove_leading_zeros l).length < l.length := by
  have hl : l ≠ [] := by
    intro e
    subst e
    simp at h
  have hlast : l.getLast hl = z251zero := by
    rw [List.getLast?_eq_getLast l hl] at h
    exact Option.some.inj h
  have hdec : l.dropLast ++ [z251zero] = l := by
    conv_rhs => rw [← List.dropLast_append_getLast hl]
    rw [hlast]
  calc (remove_leading_zeros l).length
      = (remove_leading_zeros (l.dropLast ++ [z251zero])).length := by rw [hdec]
    _ = (remove_leading_zeros l.dropLast).length := by rw [rlz_concat_zero]
    _ ≤ l.dropLast.length := rlz_length_le _
    _ < l.length := by
        rw [List.length_dropLast]
        have : l.length ≠ 0 := by simpa using hl
        omega

lemma mem_zipWith_sub_lt (u v : List Z251) :
    ∀ x ∈ List.zipWith Z251.sub u v, x.inner < 251 := by
  induction u generalizing v with
  | nil => simp
  | cons a t ih =>
    cases v with
    | nil => simp
    | cons b w =>
      intro x hx
      rcases List.mem_cons.mp hx with rfl | hx
      · exact sub_inner_lt a b
      · exact ih w x hx

lemma polyDivSub_mem_range (r dcs : List Z251) (s : Z251)
    (hrange : ∀ x ∈ r, x.inner < 251) :
    ∀ x ∈ polyDivSub r dcs s, x.inner < 251 := by
  intro x hx
  simp only [polyDivSub, List.mem_reverse, List.mem_append] at hx
  rcases hx with h | h | h
  · exact hrange x (List.mem_reverse.mp (List.Sublist.mem h (List.takeWhile_sublist _)))
  · exact mem_zipWith_sub_lt _ _ x h
  · have h1 := List.mem_of_mem_drop h
    exact hrange x (List.mem_reverse.mp (List.Sublist.mem h1 (List.dropWhile_sublist _)))

lemma polyDivSub_length (r dcs : List Z251) (s : Z251) :
    (polyDivSub r dcs s).length = r.length := by
  have hpart : ((r.reverse.takeWhile fun c => c == z251zero).length
      + (r.reverse.dropWhile fun c => c == z251zero).length) = r.length := by
    rw [← List.length_append, List.takeWhile_append_dropWhile, List.length_reverse]
  simp only [polyDivSub, List.length_reverse, List.length_append, List.length_zipWith,
    List.length_drop, List.length_map]
  omega

lemma polyDivSub_eq (r dcs : List Z251) (s : Z251) (hr : r ≠ [])
    (hlast : r.getLast? ≠ some z251zero) :
    polyDivSub r dcs s =
      (List.zipWith Z251.sub r.reverse ((dcs.map fun a => a.mul s).reverse)
        ++ r.reverse.drop ((dcs.map fun a => a.mul s).reverse).length).reverse := by
  rcases List.eq_nil_or_concat r with rfl | ⟨L, b, rfl⟩
  · exact absurd rfl hr
  · rw [List.concat_eq_append] at hlast ⊢
    rw [List.getLast?_concat] at hlast
    have hb : b ≠ z251zero := fun e => hlast (by rw [e])
    have hbeq : (b == z251zero) = false := beq_eq_false_iff_ne.mpr hb
    have hrev : (L ++ [b]).reverse = b :: L.reverse := by simp
    simp only [polyDivSub, hrev, List.takeWhile_cons, List.dropWhile_cons, hbeq]
    simp

lemma revSub_toPoly (v : List Z251) : ∀ u : List Z251, (∀ x ∈ v, x.inner ≤ 251) →
    v.length ≤ u.length →
    toPoly ((List.zipWith Z251.sub u v ++ u.drop v.length).reverse)
      = toPoly u.reverse - Polynomial.X ^ (u.length - v.length) * toPoly v.reverse := by
  induction v with
  | nil =>
    intro u _ _
    simp [toPoly_nil]
  | cons b v' ih =>
    intro u hv hlen
    cases u with
    | nil => simp at hlen
    | cons x u' =>
      have hlen' : v'.length ≤ u'.length := by simpa using hlen
      have hv' : ∀ y ∈ v', y.inner ≤ 251 := fun y hy => hv y (List.mem_cons_of_mem _ hy)
      have hb : b.inner ≤ 251 := hv b (List.mem_cons_self _ _)
      have hW : (List.zipWith Z251.sub u' v' ++ u'.drop v'.length).length = u'.length := by
        simp only [List.length_append, List.length_zipWith, List.length_drop]
        omega
      simp only [List.length_cons, List.zipWith_cons_cons, List.drop_succ_cons,
        List.cons_append, List.reverse_cons]
      rw [toPoly_concat, ih u' hv' hlen', List.length_reverse, hW, toZMod_sub _ _ hb]
      rw [toPoly_concat, toPoly_concat]
      simp only [List.length_reverse]
      have hexp : u'.length + 1 - (v'.length + 1) = u'.length - v'.length := by omega
      simp only [List.length_cons, hexp]
      have hpow : (Polynomial.X : Polynomial (ZMod 251)) ^ (u'.length - v'.length)
          * Polynomial.X ^ v'.length = Polynomial.X ^ u'.length := by
        rw [← pow_add]
        congr 1
        omega
      have hmul : (Polynomial.X : Polynomial (ZMod 251)) ^ (u'.length - v'.length)
          * (toPoly v'.reverse + Polynomial.C b.toZMod * Polynomial.X ^ v'.length)
          = Polynomial.X ^ (u'.length - v'.length) * toPoly v'.reverse
            + Polynomial.C b.toZMod * Polynomial.X ^ u'.length := by
        rw [mul_add, ← hpow]
        ring
      rw [hmul, map_sub]
      ring

lemma polyDivSub_toPoly (r dcs : List Z251) (s : Z251) (hr : r ≠ [])
    (hlast : r.getLast? ≠ some z251zero) (hlen : dcs.length ≤ r.length) :
    toPoly (polyDivSub r dcs s)
      = toPoly r
        - Polynomial.X ^ (r.length - dcs.length) * (Polynomial.C s.toZMod * toPoly dcs) := by
  rw [polyDivSub_eq r dcs s hr hlast]
  have hmem : ∀ x ∈ (dcs.map fun a => a.mul s).reverse, x.inner ≤ 251 := by
    intro x hx
    rw [List.mem_reverse] at hx
    obtain ⟨y, -, rfl⟩ := List.mem_map.mp hx
    exact le_of_lt (mul_inner_lt _ _)
  have hlen2 : ((dcs.map fun a => a.mul s).reverse).length ≤ r.reverse.length := by
    simpa using hlen
  rw [revSub_toPoly _ _ hmem hlen2, List.reverse_reverse, List.reverse_reverse,
    toPoly_map_mul]
  simp

lemma polyDivSub_last (L es : List Z251) (b cl s : Z251) (hb : b ≠ z251zero) :
    (polyDivSub (L ++ [b]) (es ++ [cl]) s).getLast? = some (b.sub (cl.mul s)) := by
  rw [polyDivSub_eq (L ++ [b]) (es ++ [cl]) s (by simp) (by rw [List.getLast?_concat]; simpa)]
  have hrev : (L ++ [b]).reverse = b :: L.reverse := by simp
  have hsc : ((es ++ [cl]).map fun a => a.mul s).reverse
      = (cl.mul s) :: (es.map fun a => a.mul s).reverse := by simp
  rw [hrev, hsc, List.zipWith_cons_cons, List.cons_append, List.getLast?_reverse]
  simp

lemma top_cancel (a c : Z251) (hc : c.inner < 251) (hc0 : c.inner ≠ 0) :
    a.sub (c.mul (a.div c)) = z251zero := by
  apply toZMod_inj _ _ (sub_inner_lt _ _) (by decide)
  rw [toZMod_sub _ _ (le_of_lt (mul_inner_lt _ _)), toZMod_mul, toZMod_div _ _ hc hc0,
    toZMod_zero]
  have hcz : c.toZMod ≠ 0 := by
    rw [Ne, toZMod_eq_zero_iff _ hc]
    exact hc0
  have hm : c.toZMod * (a.toZMod * c.toZMod⁻¹) = a.toZMod := by
    field_simp
  rw [hm, sub_self]

lemma polyDivStep_facts (dcs : List Z251) (dd : Nat) (c : Z251)
    (hdcs : dcs ≠ []) (hdlast : dcs.getLast hdcs ≠ z251zero)
    (hdrange : ∀ x ∈ dcs, x.inner < 251) (hdd : dd = dcs.length - 1)
    (hc : c = dcs.getLast hdcs)
    (r : List Z251) (hrange : ∀ x ∈ r, x.inner < 251)
    (hnorm : r.getLast? ≠ some z251zero) (hr : r ≠ []) (hdeg : dd ≤ degree r) :
    (remove_leading_zeros (polyDivSub r dcs ((r.getD (degree r) z251zero).div c))).length
      < r.length ∧
    (remove_leading_zeros (polyDivSub r dcs ((r.getD (degree r) z251zero).div c)) = [] ∨
      degree (remove_leading_zeros (polyDivSub r dcs ((r.getD (degree r) z251zero).div c)))
        < degree r) ∧
    toPoly (remove_leading_zeros (polyDivSub r dcs ((r.getD (degree r) z251zero).div c)))
      = toPoly r - Polynomial.X ^ (degree r - dd)
          * (Polynomial.C ((r.getD (degree r) z251zero).div c).toZMod * toPoly dcs) ∧
    degree r = r.length - 1 := by
  rcases List.eq_nil_or_concat r with rfl | ⟨ys, a, hconc⟩
  · exact absurd rfl hr
  rw [List.concat_eq_append] at hconc
  have ha : a ≠ z251zero := by
    intro e
    apply hnorm
    rw [hconc, e, List.getLast?_concat]
  have hgl : r.getLast hr ≠ z251zero := by
    intro e
    apply hnorm
    rw [List.getLast?_eq_getLast _ hr, e]
  have hdegr : degree r = r.length - 1 := degree_last_nonzero r hr hgl
  have hcz : c ≠ z251zero := hc ▸ hdlast
  have hcmem : c ∈ dcs := by
    rw [hc]
    exact List.getLast_mem hdcs
  have hcr : c.inner < 251 := hdrange c hcmem
  have hc0 : c.inner ≠ 0 := by
    intro e
    apply hcz
    cases c
    simp_all [z251zero]
  have hdlen : dcs.length ≠ 0 := by simpa using hdcs
  have hrlen : r.length ≠ 0 := by simpa using hr
  have hlen_dcs_r : dcs.length ≤ r.length := by omega
  have htop : r.getD (degree r) z251zero = a := by
    rw [hdegr, hconc]
    have hlength : (ys ++ [a]).length - 1 = ys.length := by simp
    rw [hlength, List.getD_eq_getElem _ _ (by simp)]
    rw [List.getElem_append]
    simp
  rcases List.eq_nil_or_concat dcs with hd0 | ⟨es, cl, hdconc⟩
  · exact absurd hd0 hdcs
  rw [List.concat_eq_append] at hdconc
  have hcl : cl = c := by
    have h1 : dcs.getLast? = some c := by rw [List.getLast?_eq_getLast _ hdcs, hc]
    rw [hdconc, List.getLast?_concat] at h1
    exact Option.some.inj h1
  have hsubLast : (polyDivSub r dcs ((r.getD (degree r) z251zero).div c)).getLast?
      = some z251zero := by
    rw [htop, hconc, hdconc, polyDivSub_last ys es a cl (a.div c) ha]
    congr 1
    rw [hcl]
    exact top_cancel a c hcr hc0
  have hshrink : (remove_leading_zeros
      (polyDivSub r dcs ((r.getD (degree r) z251zero).div c))).length < r.length := by
    have h1 := rlz_length_lt_of_last_zero _ hsubLast
    rw [polyDivSub_length] at h1
    exact h1
  refine ⟨hshrink, ?_, ?_, hdegr⟩
  · by_cases h2 : remove_leading_zeros (polyDivSub r dcs ((r.getD (degree r) z251zero).div c)) = []
    · exact Or.inl h2
    · right
      have hgl2 := (rlz_spec (polyDivSub r dcs ((r.getD (degree r) z251zero).div c))).2 h2
      have hdeg2 := degree_last_nonzero _ h2 hgl2
      have h3 : (remove_leading_zeros
          (polyDivSub r dcs ((r.getD (degree r) z251zero).div c))).length ≠ 0 := by
        simpa using h2
      omega
  · rw [toPoly_rlz, polyDivSub_toPoly r dcs _ hr hnorm hlen_dcs_r]
    have hexp : r.length - dcs.length = degree r - dd := by omega
    rw [hexp]

lemma polyDivLoop_spec (dcs : List Z251) (dd : Nat) (c : Z251) (PN : Polynomial (ZMod 251))
    (hdcs : dcs ≠ []) (hdlast : dcs.getLast hdcs ≠ z251zero)
    (hdrange : ∀ x ∈ dcs, x.inner < 251)
    (hdd : dd = dcs.length - 1) (hc : c = dcs.getLast hdcs) :
    ∀ fuel q r, r.length < fuel →
      (∀ x ∈ r, x.inner < 251) →
      r.getLast? ≠ some z251zero →
      (r ≠ [] → degree r < dd + q.length) →
      (r ≠ [] → ∀ i, i + dd ≤ degree r → q.getD i z251zero = z251zero) →
      toPoly q * toPoly dcs + toPoly r = PN →
      ∃ q' r', polyDivLoop dcs dd c fuel q r = (q', r') ∧
        toPoly q' * toPoly dcs + toPoly r' = PN ∧ (r' = [] ∨ degree r' < dd) := by
  intro fuel
  induction fuel with
  | zero =>
    intro q r hf
    exact absurd hf (Nat.not_lt_zero _)
  | succ f ih =>
    intro q r hf hrange hnorm hql hqz hinv
    by_cases hcond : dd ≤ degree r ∧ r.length ≠ 0
    · obtain ⟨hdeg, hlen0⟩ := hcond
      have hr : r ≠ [] := by
        intro e
        subst e
        simp at hlen0
      obtain ⟨hshrink, hdec, hpoly, hdegr⟩ :=
        polyDivStep_facts dcs dd c hdcs hdlast hdrange hdd hc r hrange hnorm hr hdeg
      have hrlen : r.length ≠ 0 := by simpa using hr
      have hdlen : dcs.length ≠ 0 := by simpa using hdcs
      have hidx : degree r - dd < q.length := by
        have := hql hr
        omega
      have hq0 : q.getD (degree r - dd) z251zero = z251zero := hqz hr _ (by omega)
      have hq2poly := toPoly_set q (degree r - dd) ((r.getD (degree r) z251zero).div c) hidx hq0
      have hr2range : ∀ x ∈ remove_leading_zeros
          (polyDivSub r dcs ((r.getD (degree r) z251zero).div c)), x.inner < 251 :=
        fun x hx => polyDivSub_mem_range r dcs _ hrange x (mem_rlz _ _ hx)
      have hr2norm := rlz_getLast' (polyDivSub r dcs ((r.getD (degree r) z251zero).div c))
      have hql2 : remove_leading_zeros (polyDivSub r dcs ((r.getD (degree r) z251zero).div c))
          ≠ [] → degree (remove_leading_zeros
            (polyDivSub r dcs ((r.getD (degree r) z251zero).div c)))
          < dd + (q.set (degree r - dd) ((r.getD (degree r) z251zero).div c)).length := by
        intro h2
        rcases hdec with he | hlt
        · exact absurd he h2
        · rw [List.length_set]
          have := hql hr
          omega
      have hqz2 : remove_leading_zeros (polyDivSub r dcs ((r.getD (degree r) z251zero).div c))
          ≠ [] → ∀ i, i + dd ≤ degree (remove_leading_zeros
            (polyDivSub r dcs ((r.getD (degree r) z251zero).div c))) →
          (q.set (degree r - dd) ((r.getD (degree r) z251zero).div c)).getD i z251zero
            = z251zero := by
        intro h2 i hi
        rcases hdec with he | hlt
        · exact absurd he h2
        · rw [getD_set_ne _ _ _ _ (by omega)]
          exact hqz hr i (by omega)
      have hinv2 : toPoly (q.set (degree r - dd) ((r.getD (degree r) z251zero).div c))
            * toPoly dcs
          + toPoly (remove_leading_zeros
              (polyDivSub r dcs ((r.getD (degree r) z251zero).div c))) = PN := by
        rw [hq2poly, hpoly]
        calc (toPoly q + Polynomial.C ((r.getD (degree r) z251zero).div c).toZMod
              * Polynomial.X ^ (degree r - dd)) * toPoly dcs
            + (toPoly r - Polynomial.X ^ (degree r - dd)
              * (Polynomial.C ((r.getD (degree r) z251zero).div c).toZMod * toPoly dcs))
            = toPoly q * toPoly dcs + toPoly r := by ring
          _ = PN := hinv
      have hstep := ih (q.set (degree r - dd) ((r.getD (degree r) z251zero).div c))
        (remove_leading_zeros (polyDivSub r dcs ((r.getD (degree r) z251zero).div c)))
        (by omega) hr2range hr2norm hql2 hqz2 hinv2
      obtain ⟨q', r', hrun, hq', hr'⟩ := hstep
      refine ⟨q', r', ?_, hq', hr'⟩
      simp only [polyDivLoop]
      rw [if_pos ⟨hdeg, hlen0⟩]
      exact hrun
    · refine ⟨q, r, ?_, hinv, ?_⟩
      · simp only [polyDivLoop]
        rw [if_neg hcond]
      · by_cases hre : r = []
        · exact Or.inl hre
        · right
          have h1 : r.length ≠ 0 := by simpa using hre
          rcases not_and_or.mp hcond with h2 | h2
          · exact lt_of_not_ge h2
          · exact absurd h1 (by simpa using h2)

/-- Claim C2 as amended: for a divisor with a nonzero coefficient whose degree
does not exceed the dividend's, long division returns q and r with
dividend = q * divisor + r (as polynomials over ZMod 251) and r either
trimmed to nothing (the zero polynomial) or of degree strictly below the
divisor's. The range hypotheses are the field-representative invariant. -/
theorem polynomial_division_spec (n d q r : List Z251)
    (hn : ∀ x ∈ n, x.inner < 251) (hd : ∀ x ∈ d, x.inner < 251)
    (hdnz : ∃ x ∈ d, x ≠ z251zero) (hdeg : degree d ≤ degree n)
    (hres : polynomial_division n d = some (q, r)) :
    toPoly n = toPoly q * toPoly d + toPoly r ∧ (r = [] ∨ degree r < degree d) := by
  have hnz : ¬ ((d.dropWhile fun c => c == z251zero).length = 0) := by
    intro h0
    obtain ⟨x, hx, hxne⟩ := hdnz
    have he : (d.dropWhile fun c => c == z251zero) = [] := List.length_eq_zero.mp h0
    rw [List.dropWhile_eq_nil_iff] at he
    exact hxne (by simpa using he x hx)
  have hdeg2 : ¬ (degree n < degree d) := not_lt.mpr hdeg
  have hdvne : remove_leading_zeros d ≠ [] := by
    rw [Ne, rlz_eq_nil_iff]
    intro hall
    obtain ⟨x, hx, hxne⟩ := hdnz
    exact hxne (hall x hx)
  have hdvlast : (remove_leading_zeros d).getLast hdvne ≠ z251zero := (rlz_spec d).2 hdvne
  have hdvrange : ∀ x ∈ remove_leading_zeros d, x.inner < 251 :=
    fun x hx => hd x (mem_rlz _ _ hx)
  have hdvdeg : degree (remove_leading_zeros d) = degree d := degree_rlz d
  have hdvdd : degree (remove_leading_zeros d) = (remove_leading_zeros d).length - 1 :=
    degree_last_nonzero _ hdvne hdvlast
  have hdvlen : (remove_leading_zeros d).length ≠ 0 := by simpa using hdvne
  have hcval : (remove_leading_zeros d).getD (degree (remove_leading_zeros d)) z251zero
      = (remove_leading_zeros d).getLast hdvne := by
    have hlt : (remove_leading_zeros d).length - 1 < (remove_leading_zeros d).length := by omega
    rw [hdvdd, List.getD_eq_getElem _ _ hlt, List.getLast_eq_getElem]
  have hprange : ∀ x ∈ remove_leading_zeros n, x.inner < 251 :=
    fun x hx => hn x (mem_rlz _ _ hx)
  have hpnorm : (remove_leading_zeros n).getLast? ≠ some z251zero := rlz_getLast' n
  have hpdeg : degree (remove_leading_zeros n) = degree n := degree_rlz n
  have hinv0 : toPoly (List.replicate
        (degree (remove_leading_zeros n) + 1 - degree (remove_leading_zeros d)) z251zero)
      * toPoly (remove_leading_zeros d) + toPoly (remove_leading_zeros n) = toPoly n := by
    rw [toPoly_replicate_zero, zero_mul, zero_add, toPoly_rlz]
  obtain ⟨q', r', hrun, hqpoly, hrdeg⟩ :=
    polyDivLoop_spec (remove_leading_zeros d) (degree (remove_leading_zeros d))
      ((remove_leading_zeros d).getD (degree (remove_leading_zeros d)) z251zero)
      (toPoly n) hdvne hdvlast hdvrange hdvdd hcval
      ((remove_leading_zeros n).length + 1)
      (List.replicate
        (degree (remove_leading_zeros n) + 1 - degree (remove_leading_zeros d)) z251zero)
      (remove_leading_zeros n)
      (by omega) hprange hpnorm
      (by
        intro _
        rw [List.length_replicate]
        have h1 : degree (remove_leading_zeros d) ≤ degree (remove_leading_zeros n) := by
          rw [hdvdeg, hpdeg]
          exact hdeg
        omega)
      (fun _ i _ => getD_replicate_zero _ _)
      hinv0
  have hthis : polynomial_division n d = some (q', r') := by
    rw [polynomial_division, if_neg hnz, if_neg hdeg2]
    exact congrArg some hrun
  have hqr : (q', r') = (q, r) := Option.some.inj (hthis.symm.trans hres)
  have hq : q' = q := (Prod.mk.injEq _ _ _ _).mp hqr |>.1
  have hr : r' = r := (Prod.mk.injEq _ _ _ _).mp hqr |>.2
  subst hq
  subst hr
  constructor
  · rw [← toPoly_rlz d]
    exact hqpoly.symm
  · rcases hrdeg with he | hlt
    · exact Or.inl he
    · right
      rw [← hdvdeg]
      exact hlt

/-- Witness for polynomial_division_spec on the division worked in the crate's
doctest: dividing 1 + 3 x^2 + x^3 by 9 x^2 + x^3 gives quotient 1 and
remainder 1 - 6 x^2. -/
theorem polynomial_division_spec_witness :
    toPoly [(⟨1⟩ : Z251), ⟨0⟩, ⟨3⟩, ⟨1⟩]
      = toPoly [⟨1⟩] * toPoly [⟨0⟩, ⟨0⟩, ⟨9⟩, ⟨1⟩] + toPoly [⟨1⟩, ⟨0⟩, ⟨245⟩] ∧
    ([(⟨1⟩ : Z251), ⟨0⟩, ⟨245⟩] = [] ∨
      degree [(⟨1⟩ : Z251), ⟨0⟩, ⟨245⟩] < degree [(⟨0⟩ : Z251), ⟨0⟩, ⟨9⟩, ⟨1⟩]) :=
  polynomial_division_spec [⟨1⟩, ⟨0⟩, ⟨3⟩, ⟨1⟩] [⟨0⟩, ⟨0⟩, ⟨9⟩, ⟨1⟩] [⟨1⟩] [⟨1⟩, ⟨0⟩, ⟨245⟩]
    (by decide) (by decide) (by decide) (by decide) (by decide)

/-- Claim C2 counterexample: the claim fails as stated. When the divisor's
degree exceeds the dividend's, the code returns (zero, zero), and then
dividend = q * divisor + r fails for the dividend 1; and for the constant
divisor 1 the remainder is trimmed to the empty vector, whose degree (0 by
the code's convention) is not below the divisor's degree 0. -/
theorem polynomial_division_claim_fails :
    polynomial_division [(⟨1⟩ : Z251)] [⟨0⟩, ⟨1⟩] = some ([z251zero], [z251zero]) ∧
    toPoly [(⟨1⟩ : Z251)] ≠ toPoly [z251zero] * toPoly [⟨0⟩, ⟨1⟩] + toPoly [z251zero] ∧
    polynomial_division [(⟨1⟩ : Z251)] [⟨1⟩] = some ([⟨1⟩], []) ∧
    ¬ degree ([] : List Z251) < degree [(⟨1⟩ : Z251)] := by
  refine ⟨by decide, ?_, by decide, by decide⟩
  have h0 : toPoly [z251zero] = 0 := by
    simp [toPoly_cons, toPoly_nil, toZMod_zero]
  rw [h0]
  intro h
  have hc := congrArg (fun p => Polynomial.coeff p 0) h
  simp only [toPoly_coeff, List.getD_cons_zero, zero_mul, add_zero, zero_add,
    Polynomial.coeff_zero] at hc
  rw [show ((⟨1⟩ : Z251).toZMod) = 1 by simp [Z251.toZMod]] at hc
  simp at hc

/-- Claim C9: the long-division loop terminates on any divisor with a nonzero
top coefficient and in-range coefficients. First part: a single iteration
either empties the remainder or strictly decreases its degree. Second part:
with fuel exceeding the remainder length (as supplied by
polynomial_division), the loop reaches its exit condition: final remainder
empty or of degree below the divisor's. -/
theorem division_loop_terminates (dcs : List Z251) (dd : Nat) (c : Z251)
    (hdcs : dcs ≠ []) (hdlast : dcs.getLast? ≠ some z251zero)
    (hdrange : ∀ x ∈ dcs, x.inner < 251) (hdd : dd = dcs.length - 1)
    (hc : c = dcs.getD dd z251zero) :
    (∀ r, (∀ x ∈ r, x.inner < 251) → r.getLast? ≠ some z251zero → r ≠ [] → dd ≤ degree r →
      (remove_leading_zeros (polyDivSub r dcs ((r.getD (degree r) z251zero).div c)) = [] ∨
        degree (remove_leading_zeros (polyDivSub r dcs ((r.getD (degree r) z251zero).div c)))
          < degree r)) ∧
    (∀ fuel q r, r.length < fuel → (∀ x ∈ r, x.inner < 251) →
      r.getLast? ≠ some z251zero →
      ∃ q' r', polyDivLoop dcs dd c fuel q r = (q', r') ∧ (r' = [] ∨ degree r' < dd)) := by
  have hdlast' : dcs.getLast hdcs ≠ z251zero := by
    intro e
    apply hdlast
    rw [List.getLast?_eq_getLast _ hdcs, e]
  have hdlen : dcs.length ≠ 0 := by simpa using hdcs
  have hc' : c = dcs.getLast hdcs := by
    have hlt : dcs.length - 1 < dcs.length := by omega
    rw [hc, hdd, List.getD_eq_getElem _ _ hlt, List.getLast_eq_getElem]
  constructor
  · intro r hrange hnorm hr hdeg
    exact (polyDivStep_facts dcs dd c hdcs hdlast' hdrange hdd hc' r hrange hnorm hr hdeg).2.1
  · intro fuel
    induction fuel with
    | zero =>
      intro q r hf
      exact absurd hf (Nat.not_lt_zero _)
    | succ f ih =>
      intro q r hf hrange hnorm
      by_cases hcond : dd ≤ degree r ∧ r.length ≠ 0
      · obtain ⟨hdeg, hlen0⟩ := hcond
        have hr : r ≠ [] := by
          intro e
          subst e
          simp at hlen0
        obtain ⟨hshrink, -, -, -⟩ :=
          polyDivStep_facts dcs dd c hdcs hdlast' hdrange hdd hc' r hrange hnorm hr hdeg
        obtain ⟨q', r', hrun, hr'⟩ :=
          ih (q.set (degree r - dd) ((r.getD (degree r) z251zero).div c))
            (remove_leading_zeros (polyDivSub r dcs ((r.getD (degree r) z251zero).div c)))
            (by omega)
            (fun x hx => polyDivSub_mem_range r dcs _ hrange x (mem_rlz _ _ hx))
            (rlz_getLast' _)
        refine ⟨q', r', ?_, hr'⟩
        simp only [polyDivLoop]
        rw [if_pos ⟨hdeg, hlen0⟩]
        exact hrun
      · refine ⟨q, r, ?_, ?_⟩
        · simp only [polyDivLoop]
          rw [if_neg hcond]
        · by_cases hre : r = []
          · exact Or.inl hre
          · right
            have h1 : r.length ≠ 0 := by simpa using hre
            rcases not_and_or.mp hcond with h2 | h2
            · exact lt_of_not_ge h2
            · exact absurd h1 (by simpa using h2)

/-- Witness for division_loop_terminates with divisor vector containing the
single coefficient 1 and remainder vector containing the single
coefficient 2. -/
theorem division_loop_terminates_witness :
    ∃ q' r', polyDivLoop [(⟨1⟩ : Z251)] 0 ⟨1⟩ 2 [⟨0⟩] [⟨2⟩] = (q', r') ∧
      (r' = [] ∨ degree r' < 0) :=
  (division_loop_terminates [⟨1⟩] 0 ⟨1⟩ (by decide) (by decide) (by decide) (by decide)
    (by decide)).2 2 [⟨0⟩] [⟨2⟩] (by decide) (by decide) (by decide)

/-- Unfolding part of the powers iterator from src/field/mod.rs: repeatedly
multiply the state by x and yield the new state; the first argument counts
how many elements of the infinite iterator are taken. -/
def powersAux : Nat → Z251 → Z251 → List Z251
  | 0, _, _ => []
  | n+1, state, x =>
    let s := state.mul x
    s :: powersAux n s x

/-- First n elements of powers(x) from src/field/mod.rs: once(one) chained
with the unfold that multiplies the running state by x. The source iterator
is infinite and lazy; every consumer in the crate takes exactly as many
elements as this models. -/
def powersList (n : Nat) (x : Z251) : List Z251 :=
  match n with
  | 0 => []
  | m+1 => z251one :: powersAux m z251one x

/-- Discrete Fourier transform dft from src/field/mod.rs: map over the first
seq.len() powersList of root; each entry folds the zip of seq with the powersList of
that entry's evaluation point. -/
def dft (seq : List Z251) (root : Z251) : List Z251 :=
  (powersList seq.length root).map fun ri =>
    (seq.zip (powersList seq.length ri)).foldl (fun acc ar => acc.add (ar.1.mul ar.2)) z251zero

/-- Inverse transform idft from src/field/mod.rs: the same evaluation at the
powersList of the inverse root, each entry scaled by the multiplicative inverse of
seq.len() brought into the field through the From conversion, whose assertion
requires seq.len() < 251 (modelled as none). -/
def idft (seq : List Z251) (root : Z251) : Option (List Z251) :=
  if seq.length < 251 then
    some ((powersList seq.length root.mul_inv).map fun ri =>
      ((seq.zip (powersList seq.length ri)).foldl (fun acc ar => acc.add (ar.1.mul ar.2))
        z251zero).mul (Z251.mul_inv ⟨seq.length⟩))
  else none

lemma powersAux_length (m : Nat) : ∀ st x : Z251, (powersAux m st x).length = m := by
  induction m with
  | zero => intro st x; rfl
  | succ m ih =>
    intro st x
    simp [powersAux, ih]

lemma powersList_length (n : Nat) (x : Z251) : (powersList n x).length = n := by
  cases n with
  | zero => rfl
  | succ m => simp [powersList, powersAux_length]

lemma powersAux_getD (m : Nat) : ∀ (st x : Z251) (j : Nat), j < m →
    ((powersAux m st x).getD j z251zero).toZMod = st.toZMod * x.toZMod ^ (j + 1) := by
  induction m with
  | zero =>
    intro st x j hj
    exact absurd hj (Nat.not_lt_zero _)
  | succ m ih =>
    intro st x j hj
    cases j with
    | zero =>
      simp [powersAux, List.getD_cons_zero, toZMod_mul]
    | succ j =>
      have hj' : j < m := by omega
      simp only [powersAux, List.getD_cons_succ]
      rw [ih (st.mul x) x j hj', toZMod_mul]
      ring

lemma powersList_getD (n : Nat) (x : Z251) (j : Nat) (hj : j < n) :
    ((powersList n x).getD j z251zero).toZMod = x.toZMod ^ j := by
  cases n with
  | zero => exact absurd hj (Nat.not_lt_zero _)
  | succ m =>
    cases j with
    | zero =>
      simp [powersList, List.getD_cons_zero, z251one, Z251.toZMod]
    | succ j =>
      have hj' : j < m := by omega
      simp only [powersList, List.getD_cons_succ]
      rw [powersAux_getD m z251one x j hj']
      simp [z251one, Z251.toZMod]

lemma fold_zip_toZMod (a : List Z251) : ∀ (b : List Z251) (init : Z251),
    ((a.zip b).foldl (fun acc ar => acc.add (ar.1.mul ar.2)) init).toZMod
      = init.toZMod + ∑ k ∈ Finset.range (min a.length b.length),
          (a.getD k z251zero).toZMod * (b.getD k z251zero).toZMod := by
  induction a with
  | nil => intro b init; simp
  | cons x t ih =>
    intro b init
    cases b with
    | nil => simp
    | cons y u =>
      rw [List.zip_cons_cons, List.foldl_cons, ih u (init.add (x.mul y))]
      have hmin : min (x :: t).length (y :: u).length = min t.length u.length + 1 := by
        simp [Nat.succ_min_succ]
      rw [hmin, Finset.sum_range_succ']
      simp only [List.getD_cons_succ, List.getD_cons_zero, toZMod_add, toZMod_mul]
      ring

lemma dft_length (seq : List Z251) (root : Z251) : (dft seq root).length = seq.length := by
  simp [dft, powersList_length]

lemma dft_getD (seq : List Z251) (root : Z251) (j : Nat) (hj : j < seq.length) :
    ((dft seq root).getD j z251zero).toZMod
      = ∑ k ∈ Finset.range seq.length,
          (seq.getD k z251zero).toZMod * (root.toZMod ^ j) ^ k := by
  have hjp : j < (powersList seq.length root).length := by rw [powersList_length]; exact hj
  have hjm : j < (dft seq root).length := by rw [dft_length]; exact hj
  rw [List.getD_eq_getElem _ _ hjm]
  simp only [dft, List.getElem_map]
  rw [fold_zip_toZMod, toZMod_zero, zero_add, powersList_length, min_self]
  apply Finset.sum_congr rfl
  intro k hk
  have hk' : k < seq.length := Finset.mem_range.mp hk
  rw [powersList_getD _ _ k hk']
  rw [← List.getD_eq_getElem _ z251zero hjp, powersList_getD _ _ j hj]

lemma sum_pow_root (ζ : ZMod 251) (nn : Nat) (hprim : IsPrimitiveRoot ζ nn) (m : Nat) :
    ∑ j ∈ Finset.range nn, (ζ ^ m) ^ j = if nn ∣ m then (nn : ZMod 251) else 0 := by
  by_cases hdvd : nn ∣ m
  · have h1 : ζ ^ m = 1 := (hprim.pow_eq_one_iff_dvd m).mpr hdvd
    simp [h1, hdvd, Finset.sum_const, Finset.card_range, nsmul_eq_mul]
  · have h1 : ζ ^ m ≠ 1 := fun e => hdvd ((hprim.pow_eq_one_iff_dvd m).mp e)
    rw [geom_sum_eq h1, if_neg hdvd]
    have h2 : (ζ ^ m) ^ nn - 1 = 0 := by
      rw [← pow_mul, mul_comm, pow_mul, hprim.pow_eq_one, one_pow, sub_self]
    rw [h2, zero_div]

lemma dvd_index (nn l i : Nat) (hnn : 1 ≤ nn) (hl : l < nn) (hi : i < nn) :
    nn ∣ (l + (nn - 1) * i) ↔ l = i := by
  constructor
  · intro hdvd
    obtain ⟨t, ht⟩ := hdvd
    have hcast : (l : Int) + ((nn : Int) - 1) * i = nn * t := by
      have := congrArg (fun z : Nat => (z : Int)) ht
      push_cast [Nat.cast_sub hnn] at this
      linarith
    have hdvd2 : (nn : Int) ∣ ((l : Int) - i) := by
      refine ⟨t - i, ?_⟩
      ring_nf
      linarith [hcast]
    have habs : |(l : Int) - i| < nn := by
      rw [abs_lt]
      constructor <;> [linarith [hi]; linarith [hl]]
    have h0 : (l : Int) - i = 0 := Int.eq_zero_of_abs_lt_dvd hdvd2 habs
    omega
  · intro h
    subst h
    have heq : l + (nn - 1) * l = nn * l := by
      cases nn with
      | zero => omega
      | succ m => simp [Nat.succ_sub_one]; ring
    rw [heq]
    exact Dvd.intro l rfl

lemma dft_inversion_sum (ζ : ZMod 251) (nn : Nat) (hprim : IsPrimitiveRoot ζ nn)
    (hncast : ((nn : Nat) : ZMod 251) ≠ 0) (w : Nat → ZMod 251) (i : Nat)
    (hi : i < nn) :
    (∑ k ∈ Finset.range nn, (∑ l ∈ Finset.range nn, w l * (ζ ^ k) ^ l) * (ζ⁻¹ ^ i) ^ k)
      * ((nn : Nat) : ZMod 251)⁻¹ = w i := by
  have hn1 : 1 ≤ nn := by omega
  have hinv : ζ⁻¹ = ζ ^ (nn - 1) := by
    have hmul : ζ ^ (nn - 1) * ζ = 1 := by
      rw [← pow_succ, Nat.sub_add_cancel hn1, hprim.pow_eq_one]
    exact (eq_inv_of_mul_eq_one_left hmul).symm
  have hstep1 : ∀ k, (∑ l ∈ Finset.range nn, w l * (ζ ^ k) ^ l) * (ζ⁻¹ ^ i) ^ k
      = ∑ l ∈ Finset.range nn, w l * (ζ ^ (l + (nn - 1) * i)) ^ k := by
    intro k
    rw [Finset.sum_mul]
    apply Finset.sum_congr rfl
    intro l _
    rw [hinv]
    calc w l * (ζ ^ k) ^ l * ((ζ ^ (nn - 1)) ^ i) ^ k
        = w l * ζ ^ (k * l) * ζ ^ ((nn - 1) * i * k) := by
          rw [← pow_mul, ← pow_mul, ← pow_mul, Nat.mul_assoc]
      _ = w l * ζ ^ (k * l + (nn - 1) * i * k) := by
          rw [mul_assoc, ← pow_add]
      _ = w l * (ζ ^ (l + (nn - 1) * i)) ^ k := by
          rw [← pow_mul]
          congr 2
          ring
  rw [Finset.sum_congr rfl fun k _ => hstep1 k, Finset.sum_comm]
  rw [Finset.sum_congr rfl fun l _ =>
    (Finset.mul_sum (Finset.range nn) (fun k => (ζ ^ (l + (nn - 1) * i)) ^ k) (w l)).symm]
  have hstep4 : ∀ l ∈ Finset.range nn,
      w l * ∑ k ∈ Finset.range nn, (ζ ^ (l + (nn - 1) * i)) ^ k
        = if l = i then w l * ((nn : Nat) : ZMod 251) else 0 := by
    intro l hl
    rw [sum_pow_root ζ nn hprim]
    by_cases he : l = i
    · subst he
      rw [if_pos ((dvd_index nn l l hn1 (Finset.mem_range.mp hl) hi).mpr rfl), if_pos rfl]
    · rw [if_neg fun hd => he ((dvd_index nn l i hn1 (Finset.mem_range.mp hl) hi).mp hd),
        if_neg he, mul_zero]
  rw [Finset.sum_congr rfl hstep4, Finset.sum_ite_eq' (Finset.range nn) i
    fun l => w l * ((nn : Nat) : ZMod 251)]
  rw [if_pos (Finset.mem_range.mpr hi), mul_assoc, mul_inv_cancel₀ hncast, mul_one]

/-- Claim C3: the inverse transform undoes the forward transform. For any
coefficient vector of in-range field elements and any in-range root whose
image in ZMod 251 is a primitive root of unity of order the vector's length,
idft of dft returns the original vector. -/
theorem idft_dft (v : List Z251) (root : Z251)
    (hv : ∀ x ∈ v, x.inner < 251) (hroot : root.inner < 251)
    (hprim : IsPrimitiveRoot root.toZMod v.length) :
    idft (dft v root) root = some v := by
  by_cases hn0 : v.length = 0
  · have hv0 : v = [] := List.length_eq_zero.mp hn0
    subst hv0
    rfl
  · have hn1 : 1 ≤ v.length := by omega
    have hζ : root.toZMod ≠ 0 := by
      intro e
      have h1 := hprim.pow_eq_one
      rw [e, zero_pow hn0] at h1
      exact zero_ne_one h1
    have hr0 : root.inner ≠ 0 := by
      intro e
      apply hζ
      rw [Z251.toZMod, e]
      simp
    have hferm : root.toZMod ^ 250 = 1 := by
      have h := ZMod.pow_card_sub_one_eq_one hζ
      norm_num at h
      exact h
    have hdvd250 : v.length ∣ 250 := (hprim.pow_eq_one_iff_dvd 250).mp hferm
    have hnle : v.length ≤ 250 := Nat.le_of_dvd (by norm_num) hdvd250
    have hnlt : v.length < 251 := by omega
    have hncast : ((v.length : Nat) : ZMod 251) ≠ 0 := by
      intro e
      rw [ZMod.natCast_zmod_eq_zero_iff_dvd] at e
      have h := Nat.le_of_dvd (by omega) e
      omega
    have hdlen : (dft v root).length = v.length := dft_length v root
    rw [idft, hdlen, if_pos hnlt, Option.some_inj]
    apply List.ext_getElem
    · simp [powersList_length, hdlen]
    · intro i h1 h2
      have hip : i < (powersList v.length root.mul_inv).length := by
        rw [powersList_length]
        exact h2
      simp only [List.getElem_map]
      apply toZMod_inj _ _ (mul_inner_lt _ _) (hv _ (List.getElem_mem h2))
      rw [toZMod_mul]
      have hscale : (Z251.mul_inv (⟨v.length⟩ : Z251)).toZMod
          = ((v.length : Nat) : ZMod 251)⁻¹ := by
        rw [toZMod_mul_inv (⟨v.length⟩ : Z251) hnlt hn0]
        simp [Z251.toZMod]
      have hri : ((powersList v.length root.mul_inv)[i]).toZMod = root.toZMod⁻¹ ^ i := by
        rw [← List.getD_eq_getElem _ z251zero hip, powersList_getD _ _ i h2,
          toZMod_mul_inv root hroot hr0]
      rw [fold_zip_toZMod, toZMod_zero, zero_add, dft_length, powersList_length, min_self]
      have hsum1 : ∀ k ∈ Finset.range v.length,
          ((dft v root).getD k z251zero).toZMod
            * ((powersList v.length ((powersList v.length root.mul_inv)[i])).getD
                k z251zero).toZMod
          = (∑ l ∈ Finset.range v.length,
              (v.getD l z251zero).toZMod * (root.toZMod ^ k) ^ l)
            * (root.toZMod⁻¹ ^ i) ^ k := by
        intro k hk
        have hk' : k < v.length := Finset.mem_range.mp hk
        rw [dft_getD v root k hk', powersList_getD _ _ k hk', hri]
      rw [Finset.sum_congr rfl hsum1, hscale]
      rw [dft_inversion_sum root.toZMod v.length hprim hncast
        (fun l => (v.getD l z251zero).toZMod) i h2]
      rw [List.getD_eq_getElem _ _ h2]

/-- Witness for idft_dft: over Z251 the element 250 is a primitive square
root of unity (it is -1), and the transform round-trips the vector of
coefficients 1 and 2. -/
theorem idft_dft_witness :
    idft (dft [(⟨1⟩ : Z251), ⟨2⟩] ⟨250⟩) ⟨250⟩ = some [⟨1⟩, ⟨2⟩] := by
  apply idft_dft
  · decide
  · decide
  · have h1 : IsPrimitiveRoot (-1 : ZMod 251) 2 := IsPrimitiveRoot.neg_one 251 (by norm_num)
    have h2 : (⟨250⟩ : Z251).toZMod = -1 := by decide
    rw [show [(⟨1⟩ : Z251), ⟨2⟩].length = 2 from rfl, h2]
    exact h1
